import Mathlib

/-!
# Verification of the jumble-helper anagram index

Shallow embedding of the anagram-resolution core of the repository
(`src/wordmap.rs`) and of the query/display update loop of `src/main.rs`.

Words and queries are modelled as `List Char` (the program only ever builds
entries from the ASCII letters `A`..`Z`, so Rust's byte length `q.len()`
coincides with the character count `List.length`).  The Rust
`HashMap<String, Vec<String>>` is modelled as an association list: the hash
table's iteration order is irrelevant to every claim, and an association
list with unique keys is a faithful functional model of a map.
-/

/-- `word.chars().sorted().collect::<String>()` — the canonicalizer: the
characters of a word sorted into ascending (code-point) order.  This is the
key computation of `WordMap::find_match` (wordmap.rs line 54) and of
`make_word_map` (wordmap.rs line 121). -/
def canonicalize (w : List Char) : List Char :=
  w.insertionSort (· ≤ ·)

/-- The backing store of `WordMap`: `inner: HashMap<String, Vec<String>>`,
modelled as an association list from canonical key to anagram group. -/
def InnerMap : Type := List (List Char × List (List Char))

/-- `self.inner.entry(sorted).or_default().push(unsorted)` (wordmap.rs
line 47): if the key is present, append the word to its group; otherwise
create a fresh singleton group for the key. -/
def insertInner : InnerMap → List Char → List Char → InnerMap
  | [], sorted, unsorted => [(sorted, [unsorted])]
  | (k, g) :: rest, sorted, unsorted =>
      if k = sorted then (k, g ++ [unsorted]) :: rest
      else (k, g) :: insertInner rest sorted unsorted

/-- `self.inner.get(&key)`: look a key up in the backing store. -/
def getInner : InnerMap → List Char → Option (List (List Char))
  | [], _ => none
  | (k, g) :: rest, key => if k = key then some g else getInner rest key

/-- `pub struct WordMap { inner: HashMap<String, Vec<String>> }`
(wordmap.rs lines 30-32). -/
structure WordMap where
  inner : InnerMap

/-- `WordMap::new` (wordmap.rs lines 36-40). -/
def WordMap.new : WordMap := ⟨[]⟩

/-- `WordMap::insert` (wordmap.rs lines 45-48). -/
def WordMap.insert (m : WordMap) (sorted unsorted : List Char) : WordMap :=
  ⟨insertInner m.inner sorted unsorted⟩

/-- `WordMap::find_match` (wordmap.rs lines 50-56): `None` when the query
length is outside `[minlen, maxlen]`, otherwise the group stored under the
query's canonical (sorted) form. -/
def WordMap.find_match (m : WordMap) (q : List Char) (minlen maxlen : Nat) :
    Option (List (List Char)) :=
  if q.length < minlen || q.length > maxlen then none
  else getInner m.inner (canonicalize q)

/-- `WordMap::len` (wordmap.rs lines 62-64): `self.inner.len()`, the number
of entries (canonical keys) of the backing map. -/
def WordMap.len (m : WordMap) : Nat := m.inner.length

/-- `make_word_map` (wordmap.rs lines 115-126): fold the word list into a
`WordMap`, inserting each word under its sorted form.  The Rust function
receives a newline-separated `&str`; the `words.lines()` iteration is
modelled by taking the list of lines directly. -/
def make_word_map (words : List (List Char)) : WordMap :=
  words.foldl (fun m word => m.insert (canonicalize word) word) WordMap.new

/-- The words of `words` whose canonical form is `k`, in list order: the
group that building the index accumulates under key `k`. -/
def groupOf (words : List (List Char)) (k : List Char) : List (List Char) :=
  words.filter (fun w => canonicalize w = k)

-- ## Basic lemmas about the canonicalizer

lemma canonicalize_perm (w : List Char) : List.Perm (canonicalize w) w :=
  List.perm_insertionSort _ w

lemma canonicalize_sorted (w : List Char) :
    List.Sorted (· ≤ ·) (canonicalize w) :=
  List.sorted_insertionSort _ w

lemma canonicalize_eq_iff_perm (w1 w2 : List Char) :
    canonicalize w1 = canonicalize w2 ↔ List.Perm w1 w2 := by
  constructor
  · intro h
    exact (canonicalize_perm w1).symm.trans (h ▸ canonicalize_perm w2)
  · intro h
    exact List.eq_of_perm_of_sorted
      ((canonicalize_perm w1).trans (h.trans (canonicalize_perm w2).symm))
      (canonicalize_sorted w1) (canonicalize_sorted w2)

-- ## Lemmas about the backing store

lemma getInner_insertInner (m : InnerMap) (k' u k : List Char) :
    getInner (insertInner m k' u) k =
      if k = k' then some (((getInner m k).getD []) ++ [u])
      else getInner m k := by
  induction m with
  | nil =>
      by_cases h : k = k'
      · subst h; simp [insertInner, getInner]
      · have h' : ¬ k' = k := fun hh => h hh.symm
        simp [insertInner, getInner, h, h']
  | cons e rest ih =>
      obtain ⟨k0, g0⟩ := e
      by_cases h0 : k0 = k'
      · subst h0
        by_cases h : k = k0
        · subst h; simp [insertInner, getInner]
        · have h' : ¬ k0 = k := fun hh => h hh.symm
          simp [insertInner, getInner, h, h']
      · by_cases h : k = k0
        · subst h
          have h' : ¬ k = k' := fun hh => h0 hh
          simp [insertInner, getInner, h0, h']
        · have h' : ¬ k0 = k := fun hh => h hh.symm
          simp [insertInner, getInner, h0, h', ih]

/-- Effect of the whole build fold on a single key: the group under `k`
grows by exactly the words of `ws` whose canonical form is `k`. -/
lemma getInner_foldl (ws : List (List Char)) (m : InnerMap) (k : List Char) :
    getInner (ws.foldl (fun acc w => insertInner acc (canonicalize w) w) m) k =
      match getInner m k with
      | some g => some (g ++ groupOf ws k)
      | none => if groupOf ws k = [] then none else some (groupOf ws k) := by
  induction ws generalizing m with
  | nil =>
      cases h : getInner m k <;> simp [groupOf, h]
  | cons w ws ih =>
      simp only [List.foldl_cons]
      rw [ih, getInner_insertInner]
      by_cases hk : k = canonicalize w
      · subst hk
        cases h : getInner m (canonicalize w) with
        | none => simp [groupOf, List.filter_cons, h]
        | some g => simp [groupOf, List.filter_cons, h]
      · have hck : ¬ canonicalize w = k := fun hh => hk hh.symm
        cases h : getInner m k with
        | none => simp [groupOf, List.filter_cons, h, hk, hck]
        | some g => simp [groupOf, List.filter_cons, h, hk, hck]

lemma inner_foldl_insert (ws : List (List Char)) (M : WordMap) :
    (ws.foldl (fun m w => m.insert (canonicalize w) w) M).inner =
      ws.foldl (fun acc w => insertInner acc (canonicalize w) w) M.inner := by
  induction ws generalizing M with
  | nil => rfl
  | cons w ws ih =>
      rw [List.foldl_cons, List.foldl_cons, ih]
      rfl

/-- The group stored under key `k` after building from `ws` is exactly the
filter of `ws` by canonical form `k` (absent iff that filter is empty). -/
lemma getInner_make_word_map (ws : List (List Char)) (k : List Char) :
    getInner (make_word_map ws).inner k =
      if groupOf ws k = [] then none else some (groupOf ws k) := by
  have h := getInner_foldl ws [] k
  rw [make_word_map, inner_foldl_insert]
  simpa [WordMap.new, getInner] using h

-- ## Embedding of the GUI loop of `src/main.rs`

/-- `MIN_WORD_LENGTH` (main.rs line 12). -/
def MIN_WORD_LENGTH : Nat := 4

/-- `MAX_WORD_LENGTH` (main.rs line 13). -/
def MAX_WORD_LENGTH : Nat := 10

/-- The key codes `handle_keyboard_input` distinguishes: the letter keys
`A`..`Z`, `Backspace`, `Delete` and `Escape`.  Every other key of the input
library falls into the wildcard arm of the `match` (main.rs line 212) and
pushes nothing; `Space` and `Enter` stand in for all of them here. -/
inductive KeyCode where
  | A | B | C | D | E | F | G | H | I | J | K | L | M
  | N | O | P | Q | R | S | T | U | V | W | X | Y | Z
  | Backspace | Delete | Escape | Space | Enter
deriving DecidableEq

/-- `enum EntryStatus` (main.rs lines 32-36). -/
inductive EntryStatus where
  | Changed
  | Unchanged
  | Quit
deriving DecidableEq

/-- One arm of the `match keycode` dispatch (main.rs lines 185-213):
`KeyCode::A => entry.push('A')`, ..., `_ => ()`. -/
def pushKey (entry : List Char) (k : KeyCode) : List Char :=
  match k with
  | .A => entry ++ ['A'] | .B => entry ++ ['B'] | .C => entry ++ ['C']
  | .D => entry ++ ['D'] | .E => entry ++ ['E'] | .F => entry ++ ['F']
  | .G => entry ++ ['G'] | .H => entry ++ ['H'] | .I => entry ++ ['I']
  | .J => entry ++ ['J'] | .K => entry ++ ['K'] | .L => entry ++ ['L']
  | .M => entry ++ ['M'] | .N => entry ++ ['N'] | .O => entry ++ ['O']
  | .P => entry ++ ['P'] | .Q => entry ++ ['Q'] | .R => entry ++ ['R']
  | .S => entry ++ ['S'] | .T => entry ++ ['T'] | .U => entry ++ ['U']
  | .V => entry ++ ['V'] | .W => entry ++ ['W'] | .X => entry ++ ['X']
  | .Y => entry ++ ['Y'] | .Z => entry ++ ['Z']
  | _ => entry

/-- Debug-mode `usize` subtraction: `a - b` panics on underflow, modelled
as `none`. -/
def checkedSub (a b : Nat) : Option Nat :=
  if b ≤ a then some (a - b) else none

/-- `handle_keyboard_input` (main.rs lines 158-217).  The released-key set
`get_keys_released()` is modelled as a list of key codes; the Rust function
mutates `entry` and returns an `EntryStatus`, modelled by returning the
status together with the new entry.  The whole result is `none` exactly
when the subtraction `maxlen - entry_len` (main.rs line 181) would panic
on underflow. -/
def handle_keyboard_input (keys : List KeyCode) (entry : List Char)
    (maxlen : Nat) : Option (EntryStatus × List Char) :=
  if keys.length = 0 then some (.Unchanged, entry)
  else if keys.contains .Backspace then some (.Changed, entry.dropLast)
  else if keys.contains .Delete then some (.Changed, [])
  else if keys.contains .Escape then some (.Quit, entry)
  else
    match checkedSub maxlen entry.length with
    | none => none
    | some entry_rem =>
        let keys_to_take := min entry_rem keys.length
        some (.Changed, (keys.take keys_to_take).foldl pushKey entry)

/-- The `EntryStatus::Changed` arm of the main loop (main.rs lines
246-258): recompute the matches for the new entry; if exactly one match,
display it as the answer; if the lookup returned `None`, clear the answer;
otherwise (a group of two or more matches) leave the answer as it was. -/
def updateAnswer (wm : WordMap) (entry answer : List Char) : List Char :=
  match wm.find_match entry MIN_WORD_LENGTH MAX_WORD_LENGTH with
  | some m => if m.length = 1 then m.headD [] else answer
  | none => []

/-- The main loop (main.rs lines 240-270) driven by a list of per-frame
released-key sets, acting on the state `(entry, answer)`; both strings
start empty (main.rs lines 230-231) and `handle_keyboard_input` is called
with `maxlen = 8` (main.rs line 242).  `Quit` breaks the loop with the
current state; a panic inside `handle_keyboard_input` is `none`. -/
def runSteps (wm : WordMap) :
    List (List KeyCode) → (List Char × List Char) →
      Option (List Char × List Char)
  | [], s => some s
  | keys :: rest, s =>
      match handle_keyboard_input keys s.1 8 with
      | some (.Unchanged, e) => runSteps wm rest (e, s.2)
      | some (.Changed, e) => runSteps wm rest (e, updateAnswer wm e s.2)
      | some (.Quit, _) => some s
      | none => none

-- ## Claim theorems

/-- C2: two character sequences canonicalize to the same key exactly when
they contain the same multiset of characters; in particular, for every
word `w` and every permutation `p` of its characters,
`canonicalize w = canonicalize p`. -/
theorem canonicalize_eq_iff_same_multiset :
    (∀ w1 w2 : List Char,
        canonicalize w1 = canonicalize w2 ↔
          (w1 : Multiset Char) = (w2 : Multiset Char)) ∧
    (∀ w p : List Char, List.Perm w p → canonicalize w = canonicalize p) := by
  constructor
  · intro w1 w2
    rw [canonicalize_eq_iff_perm, Multiset.coe_eq_coe]
  · intro w p h
    exact (canonicalize_eq_iff_perm w p).mpr h

/-- Witness for C2 at the concrete permutation pair `EAT` / `TEA`. -/
theorem canonicalize_eq_iff_same_multiset_witness :
    canonicalize ['E', 'A', 'T'] = canonicalize ['T', 'E', 'A'] :=
  canonicalize_eq_iff_same_multiset.2 ['E', 'A', 'T'] ['T', 'E', 'A']
    (by decide)

/-- C3: after building the index from any word list, every word `w` of the
list is found by `find_match w 0 (length w)`, and the returned group
contains `w`. -/
theorem find_match_self_mem (words : List (List Char)) (w : List Char)
    (h : w ∈ words) :
    ∃ g, (make_word_map words).find_match w 0 w.length = some g ∧ w ∈ g := by
  have hmem : w ∈ groupOf words (canonicalize w) := by
    simp [groupOf, List.mem_filter, h]
  have hne : groupOf words (canonicalize w) ≠ [] := List.ne_nil_of_mem hmem
  refine ⟨groupOf words (canonicalize w), ?_, hmem⟩
  simp [WordMap.find_match, getInner_make_word_map, hne]

/-- Witness for C3 on the list `[TEA, EAT]` and the word `EAT`. -/
theorem find_match_self_mem_witness :
    ∃ g, (make_word_map [['T', 'E', 'A'], ['E', 'A', 'T']]).find_match
        ['E', 'A', 'T'] 0 3 = some g ∧ ['E', 'A', 'T'] ∈ g :=
  find_match_self_mem [['T', 'E', 'A'], ['E', 'A', 'T']] ['E', 'A', 'T']
    (by decide)

/-- C4: a query whose character count lies outside `[minlen, maxlen]`
yields `none`, for every map — even one whose backing store holds the
query's canonical key. -/
theorem find_match_length_gate (m : WordMap) (q : List Char)
    (minlen maxlen : Nat) (h : q.length < minlen ∨ maxlen < q.length) :
    m.find_match q minlen maxlen = none := by
  rcases h with h | h <;> simp [WordMap.find_match, h]

/-- Witness for C4: `TRUS` against bounds `[5, 8]` yields `none` even
though its canonical key is present in the map built from `[TRUS]`. -/
theorem find_match_length_gate_witness :
    (make_word_map [['T', 'R', 'U', 'S']]).find_match ['T', 'R', 'U', 'S']
        5 8 = none ∧
      getInner (make_word_map [['T', 'R', 'U', 'S']]).inner
        (canonicalize ['T', 'R', 'U', 'S']) ≠ none :=
  ⟨find_match_length_gate (make_word_map [['T', 'R', 'U', 'S']])
      ['T', 'R', 'U', 'S'] 5 8 (by decide),
    by decide⟩

/-- C5: for an in-range query, `find_match` returns `none` exactly when the
query's canonical key is absent from the backing store, and otherwise the
entire stored group for that key — exactly the words of the build list
whose canonical form equals the query's, nothing omitted or added. -/
theorem find_match_in_range (words : List (List Char)) (q : List Char)
    (minlen maxlen : Nat) (h1 : minlen ≤ q.length) (h2 : q.length ≤ maxlen) :
    ((make_word_map words).find_match q minlen maxlen = none ↔
        getInner (make_word_map words).inner (canonicalize q) = none) ∧
    (make_word_map words).find_match q minlen maxlen =
      (if groupOf words (canonicalize q) = [] then none
       else some (groupOf words (canonicalize q))) := by
  have hlt : ¬ q.length < minlen := Nat.not_lt.mpr h1
  have hgt : ¬ q.length > maxlen := Nat.not_lt.mpr h2
  have hfm : (make_word_map words).find_match q minlen maxlen =
      getInner (make_word_map words).inner (canonicalize q) := by
    simp [WordMap.find_match, hlt, hgt]
  exact ⟨by rw [hfm], by rw [hfm, getInner_make_word_map]⟩

/-- Witness for C5: the in-range query `TAE` on the map built from
`[EAT, TEA]`. -/
theorem find_match_in_range_witness :
    (((make_word_map [['E', 'A', 'T'], ['T', 'E', 'A']]).find_match
          ['T', 'A', 'E'] 3 4 = none ↔
        getInner (make_word_map [['E', 'A', 'T'], ['T', 'E', 'A']]).inner
          (canonicalize ['T', 'A', 'E']) = none) ∧
      (make_word_map [['E', 'A', 'T'], ['T', 'E', 'A']]).find_match
          ['T', 'A', 'E'] 3 4 =
        (if groupOf [['E', 'A', 'T'], ['T', 'E', 'A']]
              (canonicalize ['T', 'A', 'E']) = [] then none
         else some (groupOf [['E', 'A', 'T'], ['T', 'E', 'A']]
              (canonicalize ['T', 'A', 'E'])))) :=
  find_match_in_range [['E', 'A', 'T'], ['T', 'E', 'A']] ['T', 'A', 'E'] 3 4
    (by decide) (by decide)

/-- C6: the spec's concrete scenario on the list `[PURSUE, TRUST]`:
`EUSRUP` in bounds `[6,6]` yields the group `[PURSUE]`, `TRUST` in bounds
`[5,5]` yields `[TRUST]`, and `TRUS` in bounds `[5,8]` yields no result. -/
theorem scenario_pursue_trust :
    (make_word_map [['P', 'U', 'R', 'S', 'U', 'E'],
        ['T', 'R', 'U', 'S', 'T']]).find_match
        ['E', 'U', 'S', 'R', 'U', 'P'] 6 6 =
      some [['P', 'U', 'R', 'S', 'U', 'E']] ∧
    (make_word_map [['P', 'U', 'R', 'S', 'U', 'E'],
        ['T', 'R', 'U', 'S', 'T']]).find_match
        ['T', 'R', 'U', 'S', 'T'] 5 5 =
      some [['T', 'R', 'U', 'S', 'T']] ∧
    (make_word_map [['P', 'U', 'R', 'S', 'U', 'E'],
        ['T', 'R', 'U', 'S', 'T']]).find_match
        ['T', 'R', 'U', 'S'] 5 8 = none := by
  decide

/-- C8: `find_match` is a pure function of the map, the query and the
bounds: two calls on the same arguments return identical results. -/
theorem find_match_deterministic (m : WordMap) (q : List Char)
    (minlen maxlen : Nat) :
    m.find_match q minlen maxlen = m.find_match q minlen maxlen := rfl

lemma count_groupOf (ws : List (List Char)) (w : List Char) :
    (groupOf ws (canonicalize w)).count w = ws.count w := by
  induction ws with
  | nil => rfl
  | cons x ws ih =>
      by_cases hx : x = w
      · subst hx
        simp [groupOf, List.filter_cons, List.count_cons] at ih ⊢
      · by_cases hc : canonicalize x = canonicalize w
        · simp [groupOf, List.filter_cons, hc, List.count_cons, hx] at ih ⊢
        · simp [groupOf, List.filter_cons, hc, List.count_cons, hx] at ih ⊢

/-- C7: building the index retains every occurrence of a duplicated word:
the group stored under the word's canonical key holds one entry per
occurrence of the word in the build list. -/
theorem duplicates_retained (words : List (List Char)) (w : List Char)
    (h : 1 < words.count w) :
    ∃ g, getInner (make_word_map words).inner (canonicalize w) = some g ∧
      g.count w = words.count w := by
  have hmem : w ∈ words := by
    rcases List.count_pos_iff.mp (Nat.lt_of_lt_of_le Nat.zero_lt_one
      (Nat.le_of_lt h)) with hm
    exact hm
  have hmemg : w ∈ groupOf words (canonicalize w) := by
    simp [groupOf, List.mem_filter, hmem]
  have hne : groupOf words (canonicalize w) ≠ [] := List.ne_nil_of_mem hmemg
  refine ⟨groupOf words (canonicalize w), ?_, count_groupOf words w⟩
  rw [getInner_make_word_map]
  simp [hne]

/-- Witness for C7 on the list `[ART, ART]` in which `ART` occurs twice. -/
theorem duplicates_retained_witness :
    ∃ g, getInner (make_word_map [['A', 'R', 'T'], ['A', 'R', 'T']]).inner
        (canonicalize ['A', 'R', 'T']) = some g ∧
      g.count ['A', 'R', 'T'] =
        ([['A', 'R', 'T'], ['A', 'R', 'T']] : List (List Char)).count
          ['A', 'R', 'T'] :=
  duplicates_retained [['A', 'R', 'T'], ['A', 'R', 'T']] ['A', 'R', 'T']
    (by decide)

/-- The keys of the backing store, in entry order. -/
def keysInner (m : InnerMap) : List (List Char) := m.map Prod.fst

lemma keysInner_insertInner (m : InnerMap) (k u : List Char) :
    keysInner (insertInner m k u) =
      if k ∈ keysInner m then keysInner m else keysInner m ++ [k] := by
  induction m with
  | nil => simp [keysInner, insertInner]
  | cons e rest ih =>
      obtain ⟨k0, g0⟩ := e
      by_cases h0 : k0 = k
      · subst h0
        simp [keysInner, insertInner]
      · have h0' : ¬ k = k0 := fun hh => h0 hh.symm
        have hstep : insertInner ((k0, g0) :: rest) k u =
            (k0, g0) :: insertInner rest k u := by
          simp [insertInner, h0]
        have hcons : keysInner ((k0, g0) :: insertInner rest k u) =
            k0 :: keysInner (insertInner rest k u) := rfl
        have hcons2 : keysInner ((k0, g0) :: rest) = k0 :: keysInner rest :=
          rfl
        rw [hstep, hcons, hcons2, ih]
        by_cases hm : k ∈ keysInner rest
        · simp [hm, h0']
        · simp [hm, h0']

lemma length_eq_keysInner_length (m : InnerMap) :
    m.length = (keysInner m).length := by
  simp [keysInner]

lemma nodup_keysInner_insertInner (m : InnerMap) (k u : List Char)
    (h : (keysInner m).Nodup) : (keysInner (insertInner m k u)).Nodup := by
  rw [keysInner_insertInner]
  by_cases hm : k ∈ keysInner m
  · simpa [hm] using h
  · simp [hm, List.nodup_append, h]

/-- The build fold's effect on the number of stored entries: starting from
a store with no duplicate keys, the final entry count is the cardinality of
the starting keys together with the canonical forms of the folded words. -/
lemma length_foldl_insertInner (ws : List (List Char)) (m : InnerMap)
    (h : (keysInner m).Nodup) :
    (ws.foldl (fun acc w => insertInner acc (canonicalize w) w) m).length =
      ((keysInner m).toFinset ∪ (ws.map canonicalize).toFinset).card := by
  induction ws generalizing m with
  | nil =>
      simp [length_eq_keysInner_length, List.toFinset_card_of_nodup h]
  | cons w ws ih =>
      simp only [List.foldl_cons]
      rw [ih _ (nodup_keysInner_insertInner m (canonicalize w) w h)]
      congr 1
      rw [keysInner_insertInner]
      by_cases hm : canonicalize w ∈ keysInner m
      · rw [if_pos hm, List.map_cons, List.toFinset_cons, Finset.union_insert,
          Finset.insert_eq_self.mpr
            (Finset.mem_union_left _ (List.mem_toFinset.mpr hm))]
      · rw [if_neg hm, List.toFinset_append, List.map_cons,
          List.toFinset_cons, Finset.insert_eq]
        simp only [List.toFinset_cons, List.toFinset_nil,
          LawfulSingleton.insert_emptyc_eq]
        exact Finset.union_assoc _ _ _

/-- C9: `len` returns the number of distinct canonical keys of the inserted
words (the number of anagram groups), not the number of stored words; it is
strictly smaller than the word count whenever two inserted words (anagrams
or duplicates) share a canonical key. -/
theorem len_counts_distinct_keys (words : List (List Char)) :
    (make_word_map words).len = (words.map canonicalize).toFinset.card ∧
    (¬ (words.map canonicalize).Nodup →
      (make_word_map words).len < words.length) := by
  have hmain : (make_word_map words).len =
      (words.map canonicalize).toFinset.card := by
    have h := length_foldl_insertInner words [] (by simp [keysInner])
    rw [WordMap.len, make_word_map, inner_foldl_insert]
    simpa [WordMap.new, keysInner] using h
  refine ⟨hmain, fun hnd => ?_⟩
  rw [hmain, List.card_toFinset]
  have hsub := List.dedup_sublist (words.map canonicalize)
  have hle := hsub.length_le
  have hlt : (words.map canonicalize).dedup.length <
      (words.map canonicalize).length := by
    rcases Nat.lt_or_ge (words.map canonicalize).dedup.length
        (words.map canonicalize).length with h | h
    · exact h
    · exact absurd (hsub.eq_of_length (Nat.le_antisymm hle h) ▸
        List.nodup_dedup (words.map canonicalize)) hnd
  simpa using hlt

/-- Witness for C9 on `[EAT, TEA]`: two words, one canonical key, so the
map length is 1, strictly below the word count 2. -/
theorem len_counts_distinct_keys_witness :
    ¬ (([['E', 'A', 'T'], ['T', 'E', 'A']] : List (List Char)).map
        canonicalize).Nodup ∧
      (make_word_map [['E', 'A', 'T'], ['T', 'E', 'A']]).len <
        ([['E', 'A', 'T'], ['T', 'E', 'A']] : List (List Char)).length :=
  ⟨by decide,
    (len_counts_distinct_keys [['E', 'A', 'T'], ['T', 'E', 'A']]).2
      (by decide)⟩

lemma length_pushKey (entry : List Char) (k : KeyCode) :
    (pushKey entry k).length ≤ entry.length + 1 := by
  cases k <;> simp [pushKey]

lemma length_foldl_pushKey (ks : List KeyCode) (entry : List Char) :
    (ks.foldl pushKey entry).length ≤ entry.length + ks.length := by
  induction ks generalizing entry with
  | nil => simp
  | cons k ks ih =>
      calc (List.foldl pushKey (pushKey entry k) ks).length
          ≤ (pushKey entry k).length + ks.length := ih _
        _ ≤ (entry.length + 1) + ks.length := by
            have := length_pushKey entry k
            omega
        _ = entry.length + (k :: ks).length := by simp; omega

/-- C10: if `entry` is at most `maxlen` characters, `handle_keyboard_input`
never panics (the `maxlen - entry_len` subtraction cannot underflow, so the
result is `some`) and the new entry again has at most `maxlen`
characters — at most `maxlen - length entry` letters are appended. -/
theorem handle_keyboard_input_safe (keys : List KeyCode) (entry : List Char)
    (maxlen : Nat) (h : entry.length ≤ maxlen) :
    ∃ r, handle_keyboard_input keys entry maxlen = some r ∧
      r.2.length ≤ maxlen := by
  by_cases h0 : keys.length = 0
  · exact ⟨(.Unchanged, entry), by simp [handle_keyboard_input, h0], h⟩
  by_cases hb : KeyCode.Backspace ∈ keys
  · refine ⟨(.Changed, entry.dropLast),
      by simp [handle_keyboard_input, h0, hb], ?_⟩
    show entry.dropLast.length ≤ maxlen
    have := entry.length_dropLast
    omega
  by_cases hd : KeyCode.Delete ∈ keys
  · exact ⟨(.Changed, []),
      by simp [handle_keyboard_input, h0, hb, hd], by simp⟩
  by_cases he : KeyCode.Escape ∈ keys
  · exact ⟨(.Quit, entry),
      by simp [handle_keyboard_input, h0, hb, hd, he], h⟩
  have hsub : checkedSub maxlen entry.length = some (maxlen - entry.length) :=
    by simp [checkedSub, h]
  refine ⟨(.Changed,
      (keys.take (min (maxlen - entry.length) keys.length)).foldl pushKey
        entry), ?_, ?_⟩
  · simp [handle_keyboard_input, h0, hb, hd, he, hsub]
  · show ((keys.take (min (maxlen - entry.length) keys.length)).foldl pushKey
        entry).length ≤ maxlen
    have h1 := length_foldl_pushKey
      (keys.take (min (maxlen - entry.length) keys.length)) entry
    have h2 : (keys.take (min (maxlen - entry.length) keys.length)).length ≤
        min (maxlen - entry.length) keys.length := by
      simp [List.length_take]
    omega

/-- Witness for C10: two letter keys against a 7-character entry with
`maxlen = 8`. -/
theorem handle_keyboard_input_safe_witness :
    ∃ r, handle_keyboard_input [KeyCode.A, KeyCode.B]
        ['A', 'B', 'C', 'D', 'E', 'F', 'G'] 8 = some r ∧ r.2.length ≤ 8 :=
  handle_keyboard_input_safe [KeyCode.A, KeyCode.B]
    ['A', 'B', 'C', 'D', 'E', 'F', 'G'] 8 (by decide)

/-- A dictionary on which the answer-display policy can be exercised:
`ABCD` has a unique anagram group, while `ABCDE` and `BACDE` are
permutations of each other and share one group of size two. -/
def bugWords : List (List Char) :=
  [['A', 'B', 'C', 'D'], ['A', 'B', 'C', 'D', 'E'],
    ['B', 'A', 'C', 'D', 'E']]

/-- The index built from `bugWords`, as the main loop builds its index
from the dictionary resource at startup (main.rs line 226). -/
def bugMap : WordMap := make_word_map bugWords

/-- C1 fails on the code: running the update loop from the empty state
through the key frames `A`, `B`, `C`, `D`, `E` reaches the state where the
entry is `ABCDE` and the displayed answer is still `ABCD` — a non-empty
answer remains displayed although the current query's lookup returns the
two-candidate group `[ABCDE, BACDE]`.  The `Changed` arm (main.rs lines
251-257) clears the answer when the lookup returns `None` but leaves the
stale answer in place when the lookup returns a multi-word group. -/
theorem answer_displayed_with_two_candidates :
    runSteps bugMap [[KeyCode.A], [KeyCode.B], [KeyCode.C], [KeyCode.D],
        [KeyCode.E]] ([], []) =
      some (['A', 'B', 'C', 'D', 'E'], ['A', 'B', 'C', 'D']) ∧
    bugMap.find_match ['A', 'B', 'C', 'D', 'E'] MIN_WORD_LENGTH
        MAX_WORD_LENGTH =
      some [['A', 'B', 'C', 'D', 'E'], ['B', 'A', 'C', 'D', 'E']] ∧
    (['A', 'B', 'C', 'D'] : List Char) ≠ [] := by
  decide
